import Mathlib

/-!
# Verification of the email-confirmation core (`src/confirm_emails_utils.py`)

The source is a FastAPI email-confirmation example.  Its core consists of

* a token codec built on `itsdangerous.URLSafeTimedSerializer`
  (`generate_confirmation_token` / `confirm_token`), and
* two route handlers over an in-memory user dict
  (`register` / `confirm_email`).

The `itsdangerous` serializer is third-party library code, not part of the
repository, so it is embedded symbolically, keeping its observable structure:

* a token is the string `payload ++ "." ++ timestampDigits ++ "." ++ sigChars`
  (the library layout `payload.timestamp.signature`, parsed from the right);
* the MAC is an ideal (injective) keyed function of the signed bytes and the
  salt, standing in for HMAC, and its character encoding is framed by a marker
  character so that no fragment of a signature is itself a valid signature
  (standing in for the fixed length of a real MAC);
* `loads` fails with `badSignature` when the string does not split or the MAC
  does not match, with `badTimeSignature` when the timestamp is missing or
  unreadable, and with `signatureExpired` when `now - issued > maxAge`, the
  same discriminated exceptions the library raises, in the same order;
* the wall clock is passed explicitly as a `Nat` parameter `now`.

Everything is computable so that concrete tokens evaluate by `decide`/`rfl`.
-/

namespace ConfirmEmails



/-! ## Character-level encodings -/

/-- Upper bound for Unicode scalar values: every `Char.toNat` is `< charBound`. -/
def charBound : Nat := 1114112

/-- Injective encoding of a character string as a natural number:
the base-`charBound + 1` value whose digits are the character codes plus one.
This is the symbolic stand-in for "the bytes of the signed data". -/
def strEnc : List Char → Nat
  | [] => 0
  | c :: cs => (c.toNat + 1) + (charBound + 1) * strEnc cs

/-- Little-endian base-10 digit list of `n`, with explicit fuel.  Any fuel `f`
with `n < 10 ^ f` yields the canonical digit expansion; the fuel only makes the
recursion structural (hence kernel-computable for concrete witnesses). -/
def digitsRec : Nat → Nat → List Nat
  | _, 0 => []
  | 0, _ + 1 => []
  | f + 1, n + 1 => ((n + 1) % 10) :: digitsRec f ((n + 1) / 10)

/-- Value of a little-endian base-10 digit list. -/
def fromDigits : List Nat → Nat
  | [] => 0
  | d :: ds => d + 10 * fromDigits ds

/-! ## Decimal digits as characters (the timestamp field) and
letters with a marker (the signature field) -/

/-- `'0'`–`'9'` for digit values `0`–`9`. -/
def digitChar (d : Nat) : Char := Char.ofNat (48 + d)

/-- Inverse of `digitChar` on digit characters. -/
def charDigit (c : Char) : Option Nat :=
  if 48 ≤ c.toNat ∧ c.toNat ≤ 57 then some (c.toNat - 48) else none

/-- `'a'`–`'j'` for digit values `0`–`9`. -/
def letterChar (d : Nat) : Char := Char.ofNat (97 + d)

/-- Inverse of `letterChar` on the letters `'a'`–`'j'`. -/
def charLetter (c : Char) : Option Nat :=
  if 97 ≤ c.toNat ∧ c.toNat ≤ 106 then some (c.toNat - 97) else none

/-- Decode a character list with a per-character decoder, failing if any
character fails. -/
def decodeChars (f : Char → Option Nat) : List Char → Option (List Nat)
  | [] => some []
  | c :: cs =>
    match f c, decodeChars f cs with
    | some d, some ds => some (d :: ds)
    | _, _ => none

/-- Timestamp field: canonical decimal digit characters, little-endian,
nonempty (`0` is `"0"`). -/
def dEnc (n : Nat) : List Char :=
  if n = 0 then ['0'] else (digitsRec n n).map digitChar

/-- Canonical decode of a timestamp field: digits only, canonical form. -/
def dDec (s : List Char) : Option Nat :=
  match decodeChars charDigit s with
  | some ds => if dEnc (fromDigits ds) = s then some (fromDigits ds) else none
  | none => none

/-- Signature field body (after the `'z'` marker): canonical base-10 digits
written as letters `'a'`–`'j'`, with explicit fuel. -/
def lEncBody (fuel v : Nat) : List Char :=
  if v = 0 then ['a'] else (digitsRec fuel v).map letterChar

/-- Canonical decode of a signature field: `'z'` marker, then letters in
canonical form. -/
def lDec (s : List Char) : Option Nat :=
  match s with
  | [] => none
  | c :: rest =>
    if c = 'z' then
      match decodeChars charLetter rest with
      | some ds =>
        if lEncBody (rest.length + 1) (fromDigits ds) = rest then some (fromDigits ds)
        else none
      | none => none
    else none

/-! ## Splitting at the last separator (Python `rsplit(sep, 1)`) -/

/-- Split at the first occurrence of `sep`, returning the parts before and
after it; `none` if `sep` does not occur. -/
def splitFirst (sep : Char) : List Char → Option (List Char × List Char)
  | [] => none
  | c :: cs =>
    if c = sep then some ([], cs)
    else
      match splitFirst sep cs with
      | some p => some (c :: p.1, p.2)
      | none => none

/-- Split at the last occurrence of `sep` (Python `rsplit(sep, 1)`). -/
def rsplitLast (sep : Char) (s : List Char) : Option (List Char × List Char) :=
  match splitFirst sep s.reverse with
  | some p => some (p.2.reverse, p.1.reverse)
  | none => none

/-! ## The symbolic `itsdangerous.URLSafeTimedSerializer` -/

/-- The discriminated exceptions `itsdangerous` raises during `loads` with a
`max_age`: `BadSignature`, `BadTimeSignature`, `SignatureExpired`. -/
inductive TokenErr where
  | badSignature
  | badTimeSignature
  | signatureExpired
deriving DecidableEq

/-- Ideal MAC over the signed bytes: an injective keyed function of the salt
and the value, standing in for HMAC. -/
def mac (key salt value : List Char) : Nat :=
  strEnc (key ++ '.' :: salt ++ '.' :: value)

/-- Decimal-digit budget sufficient for `mac key salt value`. -/
def macFuel (key salt value : List Char) : Nat :=
  7 * (key.length + salt.length + value.length + 2) + 1

/-- Signature characters: the marker plus the letter digits of the MAC. -/
def sigChars (key salt value : List Char) : List Char :=
  'z' :: lEncBody (macFuel key salt value) (mac key salt value)

/-- `URLSafeTimedSerializer.dumps`: `payload.timestamp.signature`, the MAC
taken over the encoded `payload.timestamp` part. -/
def dumpsL (key salt payload : List Char) (now : Nat) : List Char :=
  (payload ++ '.' :: dEnc now) ++ '.' :: sigChars key salt (payload ++ '.' :: dEnc now)

/-- `URLSafeTimedSerializer.loads` with `max_age`: split off and check the
signature over the whole signed value, then split off the timestamp, then
check the age; each failure is a discriminated exception. -/
def loadsL (key salt token : List Char) (maxAge now : Nat) : Except TokenErr (List Char) :=
  match rsplitLast '.' token with
  | none => .error .badSignature
  | some (value, sigSeg) =>
    match lDec sigSeg with
    | none => .error .badSignature
    | some sig =>
      if mac key salt value = sig then
        match rsplitLast '.' value with
        | none => .error .badTimeSignature
        | some (payload, tsSeg) =>
          match dDec tsSeg with
          | none => .error .badTimeSignature
          | some ts =>
            if now - ts > maxAge then .error .signatureExpired
            else .ok payload
      else .error .badSignature

/-! ## The source's token utilities (`token_utils.py` part of
`src/confirm_emails_utils.py`) -/

/-- `SECRET_KEY = "your-secret-key"`. -/
def SECRET_KEY : String := "your-secret-key"

/-- The salt the source passes to the serializer:
`salt="email-confirmation-salt"`. -/
def confirmationSalt : String := "email-confirmation-salt"

/-- `generate_confirmation_token(email)`: serializer `dumps` of the email with
the confirmation salt, at clock value `now`. -/
def generate_confirmation_token (email : String) (now : Nat) : String :=
  String.mk (dumpsL SECRET_KEY.data confirmationSalt.data email.data now)

/-- A `dumps` with an arbitrary salt, as a codec shared for several token
kinds would produce (used to state cross-purpose claims). -/
def generate_token_with_salt (salt email : String) (now : Nat) : String :=
  String.mk (dumpsL SECRET_KEY.data salt.data email.data now)

/-- `confirm_token(token, expiration=3600)`: serializer `loads` inside
`try/except Exception: return None` — every failure collapses to `none`. -/
def confirm_token (token : String) (expiration : Nat) (now : Nat) : Option String :=
  match loadsL SECRET_KEY.data confirmationSalt.data token.data expiration now with
  | .ok payload => some (String.mk payload)
  | .error _ => none

/-! ## The source's registration state machine (`main.py` part of
`src/confirm_emails_utils.py`) -/

/-- A value of `fake_users_db`: `{"email": ..., "password": ..., "is_active": ...}`. -/
structure UserRecord where
  email : String
  password : String
  is_active : Bool
deriving DecidableEq

/-- `fake_users_db`, the in-memory user dict. -/
def Db := String → Option UserRecord

/-- `fake_users_db[k] = r`. -/
def Db.insert (db : Db) (k : String) (r : UserRecord) : Db :=
  fun k' => if k' = k then some r else db k'

/-- Result of the `/register` route: the 400 `HTTPException` for an existing
user, a propagated mail-transport exception (carrying the token that was
already generated), or success (carrying the token that was mailed). -/
inductive RegisterOutcome where
  | userExists
  | sendFailed (token : String)
  | registered (token : String)
deriving DecidableEq

/-- `register(user)`: reject if the email is already in `fake_users_db`;
otherwise generate the token, send the mail (`mailOk` says whether
`send_confirmation_email` raises), and only then insert the record with
`is_active = False`. -/
def register (db : Db) (email password : String) (now : Nat) (mailOk : Bool) :
    RegisterOutcome × Db :=
  if (db email).isSome then (.userExists, db)
  else
    let token := generate_confirmation_token email now
    if mailOk then (.registered token, db.insert email ⟨email, password, false⟩)
    else (.sendFailed token, db)

/-- Result of the `/confirm` route: the single 400 `HTTPException`
(`"Недействительный или истекший токен"`) or success. -/
inductive ConfirmOutcome where
  | invalidToken
  | confirmed (email : String)
deriving DecidableEq

/-- `confirm_email(token)`: decode with `confirm_token` (default
`expiration=3600`); `if not email or email not in fake_users_db` raise the
single 400 error; otherwise set `is_active = True` on the record. -/
def confirm_email (db : Db) (token : String) (now : Nat) : ConfirmOutcome × Db :=
  match confirm_token token 3600 now with
  | none => (.invalidToken, db)
  | some email =>
    if email = "" then (.invalidToken, db)
    else
      match db email with
      | none => (.invalidToken, db)
      | some r => (.confirmed email, db.insert email { r with is_active := true })

/-! ## Concrete stores used by witnesses -/

/-- A store holding a single unconfirmed record for `dave@x.com`. -/
def daveDb : Db :=
  fun k => if k = "dave@x.com" then some ⟨"dave@x.com", "pw", false⟩ else none

/-- A store holding a single unconfirmed record for `alice@x.com`. -/
def aliceDb : Db :=
  fun k => if k = "alice@x.com" then some ⟨"alice@x.com", "pw", false⟩ else none



theorem char_toNat_lt (c : Char) : c.toNat < charBound := by
  have h := c.valid
  simp only [Char.toNat, charBound]
  rcases h with h | h
  · omega
  · omega

theorem char_eq_of_toNat_eq {c c' : Char} (h : c.toNat = c'.toNat) : c = c' := by
  apply Char.eq_of_val_eq
  apply UInt32.eq_of_toBitVec_eq
  apply BitVec.eq_of_toNat_eq
  simpa [Char.toNat, UInt32.toNat] using h

theorem strEnc_inj : ∀ {l l' : List Char}, strEnc l = strEnc l' → l = l' := by
  intro l
  induction l with
  | nil =>
    intro l' h
    cases l' with
    | nil => rfl
    | cons c cs => simp only [strEnc] at h; omega
  | cons c cs ih =>
    intro l' h
    cases l' with
    | nil => simp only [strEnc] at h; omega
    | cons c' cs' =>
      simp only [strEnc, charBound] at h
      have hb := char_toNat_lt c
      have hb' := char_toNat_lt c'
      simp only [charBound] at hb hb'
      have hc : c.toNat = c'.toNat ∧ strEnc cs = strEnc cs' := by omega
      have : cs = cs' := ih hc.2
      rw [char_eq_of_toNat_eq hc.1, this]

theorem strEnc_lt (l : List Char) : strEnc l < (charBound + 1) ^ l.length := by
  induction l with
  | nil => simp [strEnc]
  | cons c cs ih =>
    have hb := char_toNat_lt c
    have h2 : (charBound + 1) * (strEnc cs + 1) ≤ (charBound + 1) * (charBound + 1) ^ cs.length :=
      Nat.mul_le_mul_left _ ih
    simp only [strEnc, List.length_cons, pow_succ, charBound] at *
    omega

theorem digitsRec_zero (f : Nat) : digitsRec f 0 = [] := by
  cases f <;> rfl

theorem digitsRec_congr : ∀ (f f' n : Nat), n < 10 ^ f → n < 10 ^ f' →
    digitsRec f n = digitsRec f' n := by
  intro f
  induction f with
  | zero =>
    intro f' n hf _
    simp only [pow_zero, Nat.lt_one_iff] at hf
    subst hf
    rw [digitsRec_zero, digitsRec_zero]
  | succ g ih =>
    intro f' n hf hf'
    match n, f' with
    | 0, f' => rw [digitsRec_zero, digitsRec_zero]
    | n + 1, 0 =>
      simp only [pow_zero, Nat.lt_one_iff] at hf'
      omega
    | n + 1, f' + 1 =>
      simp only [digitsRec]
      congr 1
      apply ih
      · have : 10 ^ (g + 1) = 10 * 10 ^ g := by ring
        omega
      · have : 10 ^ (f' + 1) = 10 * 10 ^ f' := by ring
        omega

theorem fromDigits_digitsRec : ∀ (f n : Nat), n < 10 ^ f →
    fromDigits (digitsRec f n) = n := by
  intro f
  induction f with
  | zero =>
    intro n hf
    simp only [pow_zero, Nat.lt_one_iff] at hf
    subst hf
    rw [digitsRec_zero]
    rfl
  | succ g ih =>
    intro n hf
    match n with
    | 0 => rw [digitsRec_zero]; rfl
    | n + 1 =>
      simp only [digitsRec, fromDigits]
      have hdiv : (n + 1) / 10 < 10 ^ g := by
        have : 10 ^ (g + 1) = 10 * 10 ^ g := by ring
        omega
      rw [ih _ hdiv]
      omega

theorem digitsRec_lt_ten : ∀ (f n d : Nat), d ∈ digitsRec f n → d < 10 := by
  intro f
  induction f with
  | zero =>
    intro n d hd
    match n with
    | 0 => rw [digitsRec_zero] at hd; simp at hd
    | _ + 1 => simp only [digitsRec] at hd; simp at hd
  | succ g ih =>
    intro n d hd
    match n with
    | 0 => rw [digitsRec_zero] at hd; simp at hd
    | n + 1 =>
      simp only [digitsRec, List.mem_cons] at hd
      rcases hd with h | h
      · omega
      · exact ih _ _ h

theorem fromDigits_lt (ds : List Nat) (h : ∀ d ∈ ds, d < 10) :
    fromDigits ds < 10 ^ ds.length := by
  induction ds with
  | nil => simp [fromDigits]
  | cons d ds ih =>
    have hd : d < 10 := h d (by simp)
    have hds : fromDigits ds < 10 ^ ds.length := ih (fun x hx => h x (by simp [hx]))
    simp only [fromDigits, List.length_cons, pow_succ]
    have : 10 ^ ds.length * 10 = 10 * 10 ^ ds.length := Nat.mul_comm _ _
    omega

theorem charDigit_digitChar : ∀ d, d < 10 → charDigit (digitChar d) = some d := by decide

theorem charLetter_letterChar : ∀ d, d < 10 → charLetter (letterChar d) = some d := by decide

theorem digitChar_ne_dot : ∀ d, d < 10 → digitChar d ≠ '.' := by decide

theorem digitChar_ne_z : ∀ d, d < 10 → digitChar d ≠ 'z' := by decide

theorem letterChar_ne_dot : ∀ d, d < 10 → letterChar d ≠ '.' := by decide

theorem letterChar_ne_z : ∀ d, d < 10 → letterChar d ≠ 'z' := by decide

theorem charDigit_lt {c : Char} {d : Nat} (h : charDigit c = some d) : d < 10 := by
  unfold charDigit at h
  split at h
  · simp only [Option.some.injEq] at h
    omega
  · exact absurd h (by simp)

theorem charLetter_lt {c : Char} {d : Nat} (h : charLetter c = some d) : d < 10 := by
  unfold charLetter at h
  split at h
  · simp only [Option.some.injEq] at h
    omega
  · exact absurd h (by simp)

theorem decodeChars_map {f : Char → Option Nat} {g : Nat → Char}
    (hfg : ∀ d, d < 10 → f (g d) = some d) :
    ∀ {ds : List Nat}, (∀ d ∈ ds, d < 10) → decodeChars f (ds.map g) = some ds := by
  intro ds
  induction ds with
  | nil => intro _; rfl
  | cons d ds ih =>
    intro h
    have hd : d < 10 := h d (by simp)
    simp only [List.map_cons, decodeChars, hfg d hd, ih (fun x hx => h x (by simp [hx]))]

theorem decodeChars_length {f : Char → Option Nat} :
    ∀ {s : List Char} {ds : List Nat}, decodeChars f s = some ds → ds.length = s.length := by
  intro s
  induction s with
  | nil =>
    intro ds h
    simp only [decodeChars, Option.some.injEq] at h
    subst h
    rfl
  | cons c cs ih =>
    intro ds h
    simp only [decodeChars] at h
    match hfc : f c, hrec : decodeChars f cs with
    | some d, some ds' =>
      rw [hfc, hrec] at h
      simp only [Option.some.injEq] at h
      subst h
      simp [ih hrec]
    | some d, none => rw [hfc, hrec] at h; exact absurd h (by simp)
    | none, _ => rw [hfc] at h; exact absurd h (by simp)

theorem decodeChars_bound {f : Char → Option Nat}
    (hf : ∀ c d, f c = some d → d < 10) :
    ∀ {s : List Char} {ds : List Nat}, decodeChars f s = some ds → ∀ d ∈ ds, d < 10 := by
  intro s
  induction s with
  | nil =>
    intro ds h
    simp only [decodeChars, Option.some.injEq] at h
    subst h
    simp
  | cons c cs ih =>
    intro ds h
    simp only [decodeChars] at h
    match hfc : f c, hrec : decodeChars f cs with
    | some d, some ds' =>
      rw [hfc, hrec] at h
      simp only [Option.some.injEq] at h
      subst h
      intro x hx
      rcases List.mem_cons.mp hx with h' | h'
      · subst h'; exact hf _ _ hfc
      · exact ih hrec x h'
    | some d, none => rw [hfc, hrec] at h; exact absurd h (by simp)
    | none, _ => rw [hfc] at h; exact absurd h (by simp)

theorem n_lt_ten_pow (n : Nat) : n < 10 ^ n := Nat.lt_pow_self (by norm_num) n

theorem dEnc_ne_nil (n : Nat) : dEnc n ≠ [] := by
  unfold dEnc
  split
  · simp
  · next h =>
    match n, h with
    | m + 1, _ =>
      have : m + 1 < 10 ^ (m + 1) := n_lt_ten_pow (m + 1)
      simp only [digitsRec]
      simp

theorem dEnc_mem {n : Nat} {c : Char} (h : c ∈ dEnc n) : ∃ d, d < 10 ∧ c = digitChar d := by
  unfold dEnc at h
  split at h
  · simp only [List.mem_singleton] at h
    exact ⟨0, by norm_num, by rw [h]; rfl⟩
  · rcases List.mem_map.mp h with ⟨d, hd, rfl⟩
    exact ⟨d, digitsRec_lt_ten _ _ _ hd, rfl⟩

theorem dEnc_ne_dot {n : Nat} {c : Char} (h : c ∈ dEnc n) : c ≠ '.' := by
  rcases dEnc_mem h with ⟨d, hd, rfl⟩
  exact digitChar_ne_dot d hd

theorem dDec_dEnc (n : Nat) : dDec (dEnc n) = some n := by
  unfold dDec
  by_cases hn : n = 0
  · subst hn
    decide
  · have hlt : n < 10 ^ n := n_lt_ten_pow n
    have hmap : decodeChars charDigit (dEnc n) = some (digitsRec n n) := by
      unfold dEnc
      rw [if_neg hn]
      exact decodeChars_map charDigit_digitChar (fun d hd => digitsRec_lt_ten _ _ _ hd)
    rw [hmap]
    show (if dEnc (fromDigits (digitsRec n n)) = dEnc n then some (fromDigits (digitsRec n n))
      else none) = some n
    rw [fromDigits_digitsRec n n hlt, if_pos rfl]

theorem dDec_canon {s : List Char} {v : Nat} (h : dDec s = some v) : dEnc v = s := by
  unfold dDec at h
  match hdc : decodeChars charDigit s with
  | some ds =>
    rw [hdc] at h
    have h' : (if dEnc (fromDigits ds) = s then some (fromDigits ds) else none) = some v := h
    split at h'
    · next heq =>
      simp only [Option.some.injEq] at h'
      subst h'
      exact heq
    · exact Option.noConfusion h'
  | none => rw [hdc] at h; exact Option.noConfusion h

theorem dEnc_inj {n m : Nat} (h : dEnc n = dEnc m) : n = m := by
  have h1 := dDec_dEnc n
  rw [h, dDec_dEnc m] at h1
  exact (Option.some.injEq _ _ ▸ h1).symm

theorem lEncBody_congr {f f' v : Nat} (hf : v < 10 ^ f) (hf' : v < 10 ^ f') :
    lEncBody f v = lEncBody f' v := by
  unfold lEncBody
  split
  · rfl
  · rw [digitsRec_congr f f' v hf hf']

theorem lEncBody_mem {f v : Nat} {c : Char} (h : c ∈ lEncBody f v) :
    ∃ d, d < 10 ∧ c = letterChar d := by
  unfold lEncBody at h
  split at h
  · simp only [List.mem_singleton] at h
    exact ⟨0, by norm_num, by rw [h]; rfl⟩
  · rcases List.mem_map.mp h with ⟨d, hd, rfl⟩
    exact ⟨d, digitsRec_lt_ten _ _ _ hd, rfl⟩

theorem lEncBody_ne_dot {f v : Nat} {c : Char} (h : c ∈ lEncBody f v) : c ≠ '.' := by
  rcases lEncBody_mem h with ⟨d, hd, rfl⟩
  exact letterChar_ne_dot d hd

theorem lEncBody_ne_z {f v : Nat} {c : Char} (h : c ∈ lEncBody f v) : c ≠ 'z' := by
  rcases lEncBody_mem h with ⟨d, hd, rfl⟩
  exact letterChar_ne_z d hd

theorem lDec_lEncBody {f v : Nat} (hf : v < 10 ^ f) :
    lDec ('z' :: lEncBody f v) = some v := by
  have hmap : decodeChars charLetter (lEncBody f v) =
      some (if v = 0 then [0] else digitsRec f v) := by
    unfold lEncBody
    split
    · decide
    · exact decodeChars_map charLetter_letterChar (fun d hd => digitsRec_lt_ten _ _ _ hd)
  have hval : fromDigits (if v = 0 then [0] else digitsRec f v) = v := by
    split
    · next h => rw [h]; rfl
    · exact fromDigits_digitsRec f v hf
  have hlen : v < 10 ^ ((lEncBody f v).length + 1) := by
    unfold lEncBody
    split
    · next h => subst h; norm_num
    · rw [List.length_map]
      have h1 : fromDigits (digitsRec f v) < 10 ^ (digitsRec f v).length :=
        fromDigits_lt _ (fun d hd => digitsRec_lt_ten _ _ _ hd)
      rw [fromDigits_digitsRec f v hf] at h1
      calc v < 10 ^ (digitsRec f v).length := h1
        _ ≤ 10 ^ ((digitsRec f v).length + 1) := Nat.pow_le_pow_right (by norm_num) (by omega)
  simp only [lDec, if_pos rfl, hmap, hval]
  rw [lEncBody_congr hlen hf]
  simp

theorem lDec_canon {s : List Char} {v : Nat} (h : lDec s = some v) :
    ∃ f, v < 10 ^ f ∧ s = 'z' :: lEncBody f v := by
  match s with
  | [] => exact Option.noConfusion h
  | c :: rest =>
    rw [lDec] at h
    by_cases hc : c = 'z'
    · subst hc
      rw [if_pos rfl] at h
      match hdc : decodeChars charLetter rest with
      | some ds =>
        rw [hdc] at h
        have h' : (if lEncBody (rest.length + 1) (fromDigits ds) = rest
            then some (fromDigits ds) else none) = some v := h
        split at h'
        · next heq =>
          simp only [Option.some.injEq] at h'
          subst h'
          refine ⟨rest.length + 1, ?_, by rw [heq]⟩
          have hb : ∀ d ∈ ds, d < 10 := decodeChars_bound (fun c d hcd => charLetter_lt hcd) hdc
          have hlen : ds.length = rest.length := decodeChars_length hdc
          have := fromDigits_lt ds hb
          rw [hlen] at this
          calc fromDigits ds < 10 ^ rest.length := this
            _ ≤ 10 ^ (rest.length + 1) := Nat.pow_le_pow_right (by norm_num) (by omega)
        · exact Option.noConfusion h'
      | none => rw [hdc] at h; exact Option.noConfusion h
    · rw [if_neg hc] at h
      exact Option.noConfusion h

theorem lDec_inj {s s' : List Char} {v : Nat} (h : lDec s = some v) (h' : lDec s' = some v) :
    s = s' := by
  rcases lDec_canon h with ⟨f, hf, rfl⟩
  rcases lDec_canon h' with ⟨f', hf', rfl⟩
  rw [lEncBody_congr hf hf']

theorem lDec_head_ne_z {c : Char} {cs : List Char} (hc : c ≠ 'z') : lDec (c :: cs) = none := by
  simp only [lDec, if_neg hc]

theorem splitFirst_append (sep : Char) (X Y : List Char) (hX : ∀ c ∈ X, c ≠ sep) :
    splitFirst sep (X ++ sep :: Y) = some (X, Y) := by
  induction X with
  | nil => simp [splitFirst]
  | cons c cs ih =>
    have hc : c ≠ sep := hX c (by simp)
    simp only [List.cons_append, splitFirst, if_neg hc, List.append_eq,
      ih (fun x hx => hX x (by simp [hx]))]

theorem rsplitLast_append (sep : Char) (V A : List Char) (hA : ∀ c ∈ A, c ≠ sep) :
    rsplitLast sep (V ++ sep :: A) = some (V, A) := by
  have hrev : (V ++ sep :: A).reverse = A.reverse ++ sep :: V.reverse := by
    simp [List.reverse_append]
  have hArev : ∀ c ∈ A.reverse, c ≠ sep := fun c hc => hA c (List.mem_reverse.mp hc)
  simp only [rsplitLast, hrev, splitFirst_append sep _ _ hArev, List.reverse_reverse]

theorem mac_lt_fuel (key salt value : List Char) :
    mac key salt value < 10 ^ macFuel key salt value := by
  have h1 : mac key salt value <
      (charBound + 1) ^ (key ++ '.' :: salt ++ '.' :: value).length := strEnc_lt _
  have hlen : (key ++ '.' :: salt ++ '.' :: value).length =
      key.length + salt.length + value.length + 2 := by
    simp [List.length_append]
    omega
  have h2 : (charBound + 1) ^ (key.length + salt.length + value.length + 2) ≤
      (10 ^ 7) ^ (key.length + salt.length + value.length + 2) :=
    Nat.pow_le_pow_left (by norm_num [charBound]) _
  have h3 : (10 ^ 7) ^ (key.length + salt.length + value.length + 2) =
      10 ^ (7 * (key.length + salt.length + value.length + 2)) := by
    rw [← pow_mul]
  have h4 : 10 ^ (7 * (key.length + salt.length + value.length + 2)) <
      10 ^ macFuel key salt value := by
    apply Nat.pow_lt_pow_right (by norm_num)
    unfold macFuel
    omega
  rw [hlen] at h1
  omega

theorem mac_value_inj {key salt v v' : List Char}
    (h : mac key salt v = mac key salt v') : v = v' := by
  have h0 := @strEnc_inj (key ++ '.' :: salt ++ '.' :: v)
    (key ++ '.' :: salt ++ '.' :: v') h
  have h1 := List.append_cancel_left h0
  simpa using h1

theorem mac_salt_inj {key s s' v : List Char}
    (h : mac key s v = mac key s' v) : s = s' := by
  have h0 := @strEnc_inj (key ++ '.' :: s ++ '.' :: v)
    (key ++ '.' :: s' ++ '.' :: v) h
  have h1 : key ++ '.' :: s = key ++ '.' :: s' := List.append_cancel_right h0
  have h2 := List.append_cancel_left h1
  simpa using h2

theorem sigChars_ne_dot {key salt value : List Char} {c : Char}
    (h : c ∈ sigChars key salt value) : c ≠ '.' := by
  rcases List.mem_cons.mp h with h | h
  · subst h; decide
  · exact lEncBody_ne_dot h

theorem lDec_sigChars (key salt value : List Char) :
    lDec (sigChars key salt value) = some (mac key salt value) :=
  lDec_lEncBody (mac_lt_fuel key salt value)

/-- Round trip at the serializer level: a freshly dumped token loads back to
its payload until `now - issued > maxAge`, and then fails `SignatureExpired`. -/
theorem loadsL_dumpsL (key salt payload : List Char) (n maxAge now : Nat) :
    loadsL key salt (dumpsL key salt payload n) maxAge now =
      if now - n > maxAge then .error .signatureExpired else .ok payload := by
  have h1 : rsplitLast '.' (dumpsL key salt payload n) =
      some (payload ++ '.' :: dEnc n, sigChars key salt (payload ++ '.' :: dEnc n)) :=
    rsplitLast_append '.' _ _ (fun c hc => sigChars_ne_dot hc)
  have h2 : rsplitLast '.' (payload ++ '.' :: dEnc n) = some (payload, dEnc n) :=
    rsplitLast_append '.' _ _ (fun c hc => dEnc_ne_dot hc)
  simp only [loadsL, h1, lDec_sigChars, h2, dDec_dEnc]
  simp

/-! ## Single-byte tampering -/

theorem get_append_left_of_lt {l₁ l₂ : List Char} {j : Nat}
    (hj : j < (l₁ ++ l₂).length) (h : j < l₁.length) :
    (l₁ ++ l₂).get ⟨j, hj⟩ = l₁.get ⟨j, h⟩ := by
  simp only [List.get_eq_getElem]
  exact List.getElem_append_left h

theorem get_append_right_of_le {l₁ l₂ : List Char} {j : Nat}
    (hj : j < (l₁ ++ l₂).length) (h : l₁.length ≤ j) (h2 : j - l₁.length < l₂.length) :
    (l₁ ++ l₂).get ⟨j, hj⟩ = l₂.get ⟨j - l₁.length, h2⟩ := by
  simp only [List.get_eq_getElem]
  rw [List.getElem_append_right h]

theorem set_ne_self {l : List Char} {j : Nat} {c : Char} (hj : j < l.length)
    (hc : c ≠ l.get ⟨j, hj⟩) : l.set j c ≠ l := by
  induction l generalizing j with
  | nil => simp at hj
  | cons a l ih =>
    match j with
    | 0 =>
      simp only [List.set_cons_zero]
      intro h
      injection h with h1 h2
      exact hc h1
    | j + 1 =>
      simp only [List.set_cons_succ]
      intro h
      injection h with h1 h2
      exact ih (by simpa using hj) hc h2

theorem lEncBody_ne_nil {f v : Nat} (hf : v < 10 ^ f) : lEncBody f v ≠ [] := by
  unfold lEncBody
  split
  · simp
  · next hv =>
    match f, v, hv with
    | f + 1, v + 1, _ => simp [digitsRec]
    | 0, v + 1, _ => simp at hf

theorem dEnc_ne_z {n : Nat} {c : Char} (h : c ∈ dEnc n) : c ≠ 'z' := by
  rcases dEnc_mem h with ⟨d, hd, rfl⟩
  exact digitChar_ne_z d hd

theorem get_cons_of_pos {a : Char} {l : List Char} {i : Nat} (h : i < (a :: l).length)
    (hi : 0 < i) (h2 : i - 1 < l.length) : (a :: l).get ⟨i, h⟩ = l.get ⟨i - 1, h2⟩ := by
  match i, hi with
  | i + 1, _ =>
    simp only [Nat.add_sub_cancel]
    rfl

set_option maxRecDepth 2000 in
/-- Core tampering case analysis: replacing any single character of a token of
the shape `P.D.zB` (digits `D`, marked canonical signature `'z' :: body`
binding `P.D`) by a different character makes `loadsL` fail `badSignature`,
whatever the position, the replacement character, the age bound and the
clock. -/
theorem loadsL_set_aux (key salt P D body : List Char) (j : Nat) (c : Char)
    (hD : D ≠ []) (ndD : ∀ x ∈ D, x ≠ '.') (nzD : ∀ x ∈ D, x ≠ 'z')
    (ndB : ∀ x ∈ body, x ≠ '.') (nzB : ∀ x ∈ body, x ≠ 'z') (hB : body ≠ [])
    (hSdec : lDec ('z' :: body) = some (mac key salt (P ++ '.' :: D)))
    (hj : j < ((P ++ '.' :: D) ++ '.' :: 'z' :: body).length)
    (hc : c ≠ ((P ++ '.' :: D) ++ '.' :: 'z' :: body).get ⟨j, hj⟩) (maxAge now : Nat) :
    loadsL key salt (((P ++ '.' :: D) ++ '.' :: 'z' :: body).set j c) maxAge now =
      Except.error TokenErr.badSignature := by
  have ndS : ∀ x ∈ 'z' :: body, x ≠ '.' := by
    intro x hx
    rcases List.mem_cons.mp hx with rfl | hx
    · decide
    · exact ndB x hx
  have hlen : ((P ++ '.' :: D) ++ '.' :: 'z' :: body).length =
      (P ++ '.' :: D).length + (body.length + 2) := by
    simp [List.length_append]
    omega
  rcases Nat.lt_trichotomy j (P ++ '.' :: D).length with hjV | hjV | hjV
  · -- the altered character is inside the signed value: the MAC check fails
    have hset : ((P ++ '.' :: D) ++ '.' :: 'z' :: body).set j c
        = (P ++ '.' :: D).set j c ++ '.' :: 'z' :: body := by
      rw [List.set_append_left _ _ hjV]
    have hcV : c ≠ (P ++ '.' :: D).get ⟨j, hjV⟩ := by
      rw [get_append_left_of_lt hj hjV] at hc
      exact hc
    have hne : (P ++ '.' :: D).set j c ≠ P ++ '.' :: D := set_ne_self hjV hcV
    have hsplit : rsplitLast '.' ((P ++ '.' :: D).set j c ++ '.' :: 'z' :: body)
        = some ((P ++ '.' :: D).set j c, 'z' :: body) :=
      rsplitLast_append '.' _ _ ndS
    have hmac : ¬ (mac key salt ((P ++ '.' :: D).set j c) = mac key salt (P ++ '.' :: D)) :=
      fun he => hne (mac_value_inj he)
    simp only [loadsL, hset, hsplit, hSdec, if_neg hmac]
  · -- the altered character is the dot before the signature: the string
    -- re-parses with the digits at the head of the signature segment
    have hle : (P ++ '.' :: D).length ≤ j := le_of_eq hjV.symm
    have h0 : j - (P ++ '.' :: D).length = 0 := by omega
    have h2b : j - (P ++ '.' :: D).length < ('.' :: 'z' :: body).length := by
      simp only [List.length_cons]
      omega
    have hget : ((P ++ '.' :: D) ++ '.' :: 'z' :: body).get ⟨j, hj⟩ = '.' := by
      rw [get_append_right_of_le hj hle h2b]
      simp only [h0]
      rfl
    have hcdot : c ≠ '.' := hget ▸ hc
    have hset : ((P ++ '.' :: D) ++ '.' :: 'z' :: body).set j c
        = (P ++ '.' :: D) ++ c :: 'z' :: body := by
      rw [List.set_append_right _ _ hle, h0, List.set_cons_zero]
    have hassoc : (P ++ '.' :: D) ++ c :: 'z' :: body
        = P ++ '.' :: (D ++ c :: 'z' :: body) := by
      simp [List.append_assoc]
    have hsplit : rsplitLast '.' (P ++ '.' :: (D ++ c :: 'z' :: body))
        = some (P, D ++ c :: 'z' :: body) := by
      apply rsplitLast_append
      intro x hx
      rcases List.mem_append.mp hx with hx | hx
      · exact ndD x hx
      · rcases List.mem_cons.mp hx with rfl | hx
        · exact hcdot
        · rcases List.mem_cons.mp hx with rfl | hx
          · decide
          · exact ndB x hx
    obtain ⟨d₀, D', hDcons⟩ := List.exists_cons_of_ne_nil hD
    have hld : lDec (D ++ c :: 'z' :: body) = none := by
      rw [hDcons, List.cons_append]
      exact lDec_head_ne_z (nzD d₀ (by rw [hDcons]; simp))
    rw [hset, hassoc]
    simp only [loadsL, hsplit, hld]
  · -- the altered character is inside the signature segment
    have hle : (P ++ '.' :: D).length ≤ j := by omega
    have hk : j - (P ++ '.' :: D).length - 1 < ('z' :: body).length := by
      simp only [List.length_cons]
      omega
    have h1 : j - (P ++ '.' :: D).length = (j - (P ++ '.' :: D).length - 1) + 1 := by
      omega
    have h2b : j - (P ++ '.' :: D).length < ('.' :: 'z' :: body).length := by
      rw [hlen] at hj
      simp only [List.length_cons]
      omega
    have hget : ((P ++ '.' :: D) ++ '.' :: 'z' :: body).get ⟨j, hj⟩
        = ('z' :: body).get ⟨j - (P ++ '.' :: D).length - 1, hk⟩ := by
      rw [get_append_right_of_le hj hle h2b]
      exact get_cons_of_pos h2b (by omega) hk
    have hcS : c ≠ ('z' :: body).get ⟨j - (P ++ '.' :: D).length - 1, hk⟩ := hget ▸ hc
    have hset : ((P ++ '.' :: D) ++ '.' :: 'z' :: body).set j c
        = (P ++ '.' :: D) ++ '.' :: ('z' :: body).set (j - (P ++ '.' :: D).length - 1) c := by
      rw [List.set_append_right _ _ hle, h1, List.set_cons_succ]
      simp only [Nat.add_sub_cancel]
    by_cases hdot : c = '.'
    · subst hdot
      cases hk2 : j - (P ++ '.' :: D).length - 1 with
      | zero =>
        -- the marker is replaced by a dot: the signature segment loses it
        rw [hk2] at hset
        rw [List.set_cons_zero] at hset
        have hassoc : (P ++ '.' :: D) ++ '.' :: '.' :: body
            = ((P ++ '.' :: D) ++ ['.']) ++ '.' :: body := by
          simp [List.append_assoc]
        have hsplit : rsplitLast '.' (((P ++ '.' :: D) ++ ['.']) ++ '.' :: body)
            = some ((P ++ '.' :: D) ++ ['.'], body) :=
          rsplitLast_append '.' _ _ ndB
        obtain ⟨b₀, rest, hBcons⟩ := List.exists_cons_of_ne_nil hB
        have hld : lDec body = none := by
          rw [hBcons]
          exact lDec_head_ne_z (nzB b₀ (by rw [hBcons]; simp))
        simp only [loadsL, hset, hassoc, hsplit, hld]
      | succ m =>
        -- a signature letter is replaced by a dot: the tail of the signature
        -- cannot carry the marker
        rw [hk2] at hset
        rw [List.set_cons_succ] at hset
        have hmB : m < body.length := by
          simp only [List.length_cons] at hk
          omega
        have htake : body.set m '.' = body.take m ++ '.' :: body.drop (m + 1) := by
          rw [List.set_eq_take_append_cons_drop, if_pos hmB]
        have hassoc : (P ++ '.' :: D) ++ '.' :: 'z' :: (body.take m ++ '.' :: body.drop (m + 1))
            = ((P ++ '.' :: D) ++ '.' :: 'z' :: body.take m) ++ '.' :: body.drop (m + 1) := by
          simp [List.append_assoc]
        have hsplit : rsplitLast '.'
              (((P ++ '.' :: D) ++ '.' :: 'z' :: body.take m) ++ '.' :: body.drop (m + 1))
            = some ((P ++ '.' :: D) ++ '.' :: 'z' :: body.take m, body.drop (m + 1)) :=
          rsplitLast_append '.' _ _ (fun x hx => ndB x (List.drop_subset _ _ hx))
        have hld : lDec (body.drop (m + 1)) = none := by
          cases hdn : body.drop (m + 1) with
          | nil => rfl
          | cons b₀ rest =>
            exact lDec_head_ne_z (nzB b₀ (List.drop_subset _ _ (by rw [hdn]; simp)))
        simp only [loadsL, hset, htake, hassoc, hsplit, hld]
    · -- a signature character is replaced by a non-dot character: either the
      -- segment no longer decodes, or it decodes to a different MAC value
      have ndset : ∀ x ∈ ('z' :: body).set (j - (P ++ '.' :: D).length - 1) c, x ≠ '.' := by
        intro x hx
        rcases List.mem_or_eq_of_mem_set hx with hx | rfl
        · exact ndS x hx
        · exact hdot
      have hsplit : rsplitLast '.'
            ((P ++ '.' :: D) ++ '.' :: ('z' :: body).set (j - (P ++ '.' :: D).length - 1) c)
          = some (P ++ '.' :: D, ('z' :: body).set (j - (P ++ '.' :: D).length - 1) c) :=
        rsplitLast_append '.' _ _ ndset
      have hne : ('z' :: body).set (j - (P ++ '.' :: D).length - 1) c ≠ 'z' :: body :=
        set_ne_self hk hcS
      cases hld : lDec (('z' :: body).set (j - (P ++ '.' :: D).length - 1) c) with
      | none => simp only [loadsL, hset, hsplit, hld]
      | some v =>
        have hv : ¬ (mac key salt (P ++ '.' :: D) = v) := by
          intro he
          exact hne (lDec_inj hld (he ▸ hSdec))
        simp only [loadsL, hset, hsplit, hld, if_neg hv]

/-- Tampering with any single character of a dumped token makes `loadsL`
fail with `badSignature`, for every age bound and clock value. -/
theorem loadsL_tampered (key salt payload : List Char) (n j : Nat) (c : Char)
    (hj : j < (dumpsL key salt payload n).length)
    (hc : c ≠ (dumpsL key salt payload n).get ⟨j, hj⟩) (maxAge now : Nat) :
    loadsL key salt ((dumpsL key salt payload n).set j c) maxAge now =
      Except.error TokenErr.badSignature :=
  loadsL_set_aux key salt payload (dEnc n)
    (lEncBody (macFuel key salt (payload ++ '.' :: dEnc n))
      (mac key salt (payload ++ '.' :: dEnc n)))
    j c (dEnc_ne_nil n) (fun _ hx => dEnc_ne_dot hx) (fun _ hx => dEnc_ne_z hx)
    (fun _ hx => lEncBody_ne_dot hx) (fun _ hx => lEncBody_ne_z hx)
    (lEncBody_ne_nil (mac_lt_fuel key salt (payload ++ '.' :: dEnc n)))
    (lDec_sigChars key salt (payload ++ '.' :: dEnc n))
    hj hc maxAge now

/-- A token minted with a different salt fails the MAC comparison: the salt
keys the MAC, so verification reports `badSignature`, not a purpose-specific
error. -/
theorem loadsL_wrong_salt (key salt salt2 payload : List Char) (hs : salt2 ≠ salt)
    (n a t : Nat) :
    loadsL key salt (dumpsL key salt2 payload n) a t =
      Except.error TokenErr.badSignature := by
  have h1 : rsplitLast '.' (dumpsL key salt2 payload n)
      = some (payload ++ '.' :: dEnc n, sigChars key salt2 (payload ++ '.' :: dEnc n)) :=
    rsplitLast_append '.' _ _ (fun c hc => sigChars_ne_dot hc)
  have hmac : ¬ (mac key salt (payload ++ '.' :: dEnc n)
      = mac key salt2 (payload ++ '.' :: dEnc n)) :=
    fun he => hs (mac_salt_inj he).symm
  simp only [loadsL, h1, lDec_sigChars, if_neg hmac]

theorem string_data_inj {s t : String} (h : s.data = t.data) : s = t := by
  cases s
  cases t
  exact congrArg String.mk h

/-- A fresh token verifies to its email at any clock value `t` with
`t - n ≤ expiration` (the serializer expires only strictly beyond the age). -/
theorem confirm_token_fresh (i : String) (n expiration t : Nat) (h : t - n ≤ expiration) :
    confirm_token (generate_confirmation_token i n) expiration t = some i := by
  show (match loadsL SECRET_KEY.data confirmationSalt.data
      (dumpsL SECRET_KEY.data confirmationSalt.data i.data n) expiration t with
    | .ok payload => some (String.mk payload)
    | .error _ => none) = some i
  rw [loadsL_dumpsL, if_neg (by omega)]

/-- A token strictly beyond its age fails: the serializer raises
`SignatureExpired`, and `confirm_token` turns it into `none`. -/
theorem confirm_token_expired (i : String) (n expiration t : Nat) (h : n + expiration < t) :
    loadsL SECRET_KEY.data confirmationSalt.data
        (generate_confirmation_token i n).data expiration t
      = Except.error TokenErr.signatureExpired ∧
    confirm_token (generate_confirmation_token i n) expiration t = none := by
  have hl : loadsL SECRET_KEY.data confirmationSalt.data
      (dumpsL SECRET_KEY.data confirmationSalt.data i.data n) expiration t
      = Except.error TokenErr.signatureExpired := by
    rw [loadsL_dumpsL, if_pos (by omega)]
  refine ⟨hl, ?_⟩
  show (match loadsL SECRET_KEY.data confirmationSalt.data
      (dumpsL SECRET_KEY.data confirmationSalt.data i.data n) expiration t with
    | .ok payload => some (String.mk payload)
    | .error _ => none) = none
  rw [hl]

/-! ## Claims -/

/-- C1: Round-trip — for every identity `i`, verifying a freshly generated
token immediately after generation (same clock value, so no time has elapsed)
succeeds and returns the same identity, for every expiration bound. -/
theorem C1_round_trip (i : String) (n expiration : Nat) :
    confirm_token (generate_confirmation_token i n) expiration n = some i :=
  confirm_token_fresh i n expiration n (by omega)

/-- C2: Expiry boundary — verifying at any time strictly greater than
`issued_at + a` fails (the serializer raises `SignatureExpired`, which
`confirm_token` surfaces as `none`), and verifying at any time strictly less
than `issued_at + a` succeeds with the identity. -/
theorem C2_expiry_boundary (i : String) (n a t : Nat) :
    (n + a < t →
      loadsL SECRET_KEY.data confirmationSalt.data
          (generate_confirmation_token i n).data a t
        = Except.error TokenErr.signatureExpired ∧
      confirm_token (generate_confirmation_token i n) a t = none) ∧
    (t < n + a → confirm_token (generate_confirmation_token i n) a t = some i) :=
  ⟨fun h => confirm_token_expired i n a t h,
   fun h => confirm_token_fresh i n a t (by omega)⟩

theorem C2_witness :
    confirm_token (generate_confirmation_token "a" 0) 5 10 = none ∧
    confirm_token (generate_confirmation_token "a" 0) 5 3 = some "a" :=
  ⟨((C2_expiry_boundary "a" 0 5 10).1 (by norm_num)).2,
   (C2_expiry_boundary "a" 0 5 3).2 (by norm_num)⟩

/-- C3 (amended): altering any single encoded byte of a generated token makes
verification fail, for every age bound and clock value — but the failure value
of `confirm_token` is the undifferentiated `None` (the `except Exception:
return None` in the source), not a discriminated `SignatureMismatch` /
`MalformedToken`; the discriminated `BadSignature` exists only inside the
serializer and is swallowed. -/
theorem C3_tamper_undifferentiated (i : String) (n j : Nat) (c : Char)
    (hj : j < (generate_confirmation_token i n).data.length)
    (hc : c ≠ (generate_confirmation_token i n).data.get ⟨j, hj⟩) (a t : Nat) :
    loadsL SECRET_KEY.data confirmationSalt.data
        ((generate_confirmation_token i n).data.set j c) a t
      = Except.error TokenErr.badSignature ∧
    confirm_token (String.mk ((generate_confirmation_token i n).data.set j c)) a t
      = none := by
  have hl := loadsL_tampered SECRET_KEY.data confirmationSalt.data i.data n j c hj hc a t
  refine ⟨hl, ?_⟩
  show (match loadsL SECRET_KEY.data confirmationSalt.data
      ((dumpsL SECRET_KEY.data confirmationSalt.data i.data n).set j c) a t with
    | .ok payload => some (String.mk payload)
    | .error _ => none) = none
  rw [hl]

set_option maxRecDepth 100000 in
theorem C3_counterexample :
    confirm_token
        (String.mk ((generate_confirmation_token "alice@x.com" 0).data.set 0 'X')) 3600 0
      = none ∧
    confirm_token (generate_confirmation_token "alice@x.com" 0) 0 5 = none := by
  constructor
  · decide
  · decide

set_option maxRecDepth 100000 in
theorem C3_witness :
    confirm_token (String.mk ((generate_confirmation_token "a" 0).data.set 1 'q')) 3600 0
      = none := by
  have hj : 1 < (generate_confirmation_token "a" 0).data.length := by decide
  have hq : (generate_confirmation_token "a" 0).data[1]? = some '.' := by decide
  have hget : (generate_confirmation_token "a" 0).data.get ⟨1, hj⟩ = '.' := by
    have h2 := List.getElem?_eq_getElem hj
    rw [hq] at h2
    exact (Option.some.inj h2).symm
  refine (C3_tamper_undifferentiated "a" 0 1 'q' hj ?_ 3600 0).2
  rw [hget]
  decide

/-- C4: Duplicate registration is rejected atomically — if a record for the
identity already exists (whatever its `is_active` flag), `register` fails with
the "user already exists" error and the whole store is returned unchanged. -/
theorem C4_duplicate_register (db : Db) (i p : String) (n : Nat) (m : Bool)
    (h : (db i).isSome) : register db i p n m = (RegisterOutcome.userExists, db) := by
  unfold register
  rw [if_pos h]

theorem C4_witness :
    register aliceDb "alice@x.com" "pw2" 5 true = (RegisterOutcome.userExists, aliceDb) :=
  C4_duplicate_register aliceDb "alice@x.com" "pw2" 5 true (by decide)

/-- C5: Confirm is idempotent and activates the record — for a registered
nonempty identity and a still-valid token, `confirm_email` succeeds and sets
`is_active := true`; a second call with the same still-valid token also
succeeds, and the record is active after each call. -/
theorem C5_confirm_idempotent (db : Db) (i : String) (r : UserRecord) (n t₁ t₂ : Nat)
    (hi : i ≠ "") (hr : db i = some r) (h₁ : t₁ - n ≤ 3600) (h₂ : t₂ - n ≤ 3600) :
    confirm_email db (generate_confirmation_token i n) t₁
      = (ConfirmOutcome.confirmed i, db.insert i { r with is_active := true }) ∧
    (db.insert i { r with is_active := true }) i = some { r with is_active := true } ∧
    confirm_email (db.insert i { r with is_active := true })
        (generate_confirmation_token i n) t₂
      = (ConfirmOutcome.confirmed i, (db.insert i { r with is_active := true }).insert i
          { r with is_active := true }) ∧
    ((db.insert i { r with is_active := true }).insert i { r with is_active := true }) i
      = some { r with is_active := true } := by
  have htok₁ := confirm_token_fresh i n 3600 t₁ h₁
  have htok₂ := confirm_token_fresh i n 3600 t₂ h₂
  have hdb₂ : (db.insert i { r with is_active := true }) i
      = some { r with is_active := true } := by
    unfold Db.insert
    rw [if_pos rfl]
  have hdb₃ : ((db.insert i { r with is_active := true }).insert i
      { r with is_active := true }) i = some { r with is_active := true } := by
    unfold Db.insert
    rw [if_pos rfl]
  refine ⟨?_, hdb₂, ?_, hdb₃⟩
  · simp only [confirm_email, htok₁, if_neg hi, hr]
  · simp only [confirm_email, htok₂, if_neg hi, hdb₂]

set_option maxRecDepth 100000 in
theorem C5_witness :
    confirm_email daveDb (generate_confirmation_token "dave@x.com" 0) 10
      = (ConfirmOutcome.confirmed "dave@x.com",
          daveDb.insert "dave@x.com" ⟨"dave@x.com", "pw", true⟩) ∧
    (daveDb.insert "dave@x.com" ⟨"dave@x.com", "pw", true⟩) "dave@x.com"
      = some ⟨"dave@x.com", "pw", true⟩ ∧
    confirm_email (daveDb.insert "dave@x.com" ⟨"dave@x.com", "pw", true⟩)
        (generate_confirmation_token "dave@x.com" 0) 20
      = (ConfirmOutcome.confirmed "dave@x.com",
          (daveDb.insert "dave@x.com" ⟨"dave@x.com", "pw", true⟩).insert "dave@x.com"
            ⟨"dave@x.com", "pw", true⟩) ∧
    ((daveDb.insert "dave@x.com" ⟨"dave@x.com", "pw", true⟩).insert "dave@x.com"
        ⟨"dave@x.com", "pw", true⟩) "dave@x.com" = some ⟨"dave@x.com", "pw", true⟩ :=
  C5_confirm_idempotent daveDb "dave@x.com" ⟨"dave@x.com", "pw", false⟩ 0 10 20
    (by decide) rfl (by norm_num) (by norm_num)

/-- C6 (amended): a token that verifies to an identity with no matching record
makes `confirm_email` fail with the same single undifferentiated 400 error it
uses for verification failures (`"Недействительный или истекший токен"`); the
code has no distinct `UnknownIdentity` error. -/
theorem C6_unknown_identity_same_error (db : Db) (token : String) (now : Nat) (e : String)
    (htok : confirm_token token 3600 now = some e) (he : e ≠ "") (hdb : db e = none) :
    confirm_email db token now = (ConfirmOutcome.invalidToken, db) := by
  simp only [confirm_email, htok, if_neg he, hdb]

set_option maxRecDepth 100000 in
theorem C6_counterexample :
    confirm_email (fun _ => none) (generate_confirmation_token "alice@x.com" 0) 0
      = (ConfirmOutcome.invalidToken, fun _ => none) ∧
    confirm_email (fun _ => none) "garbage" 0
      = (ConfirmOutcome.invalidToken, fun _ => none) := by
  constructor
  · rfl
  · rfl

set_option maxRecDepth 100000 in
theorem C6_witness :
    confirm_email (fun _ => none) (generate_confirmation_token "bob@x.com" 0) 0
      = (ConfirmOutcome.invalidToken, fun _ => none) :=
  C6_unknown_identity_same_error (fun _ => none) (generate_confirmation_token "bob@x.com" 0)
    0 "bob@x.com" (by decide) (by decide) rfl

/-- C7 (amended): `register` first generates the token and attempts mail
delivery, and only then creates the record; consequently, if mail delivery
fails after the token was generated, the store is unchanged and holds no
record at all for the identity (the registration is not left `Pending`). -/
theorem C7_register_order (db : Db) (i p : String) (n : Nat) (hdb : db i = none) :
    register db i p n false
      = (RegisterOutcome.sendFailed (generate_confirmation_token i n), db) ∧
    register db i p n true
      = (RegisterOutcome.registered (generate_confirmation_token i n),
          db.insert i ⟨i, p, false⟩) := by
  constructor
  · simp only [register, hdb, Option.isSome_none, Bool.false_eq_true, if_false]
  · simp only [register, hdb, Option.isSome_none, Bool.false_eq_true, if_false, if_true]

theorem C7_counterexample :
    (register (fun _ => none) "alice@x.com" "pw" 0 false).2 "alice@x.com" = none := rfl

theorem C7_witness :
    register (fun _ => none) "alice@x.com" "pw" 0 false
      = (RegisterOutcome.sendFailed (generate_confirmation_token "alice@x.com" 0),
          fun _ => none) ∧
    register (fun _ => none) "alice@x.com" "pw" 0 true
      = (RegisterOutcome.registered (generate_confirmation_token "alice@x.com" 0),
          Db.insert (fun _ => none) "alice@x.com" ⟨"alice@x.com", "pw", false⟩) :=
  C7_register_order (fun _ => none) "alice@x.com" "pw" 0 rfl

/-- C8 (amended): a token minted with a salt other than
`"email-confirmation-salt"` fails verification with the email-confirmation
codec — but the failure is a MAC mismatch (`BadSignature` at the serializer,
`None` from `confirm_token`); no `PurposeMismatch` error exists in the code. -/
theorem C8_wrong_salt_fails (salt2 : String) (hs : salt2 ≠ confirmationSalt)
    (i : String) (n a t : Nat) :
    loadsL SECRET_KEY.data confirmationSalt.data
        (generate_token_with_salt salt2 i n).data a t
      = Except.error TokenErr.badSignature ∧
    confirm_token (generate_token_with_salt salt2 i n) a t = none := by
  have hs2 : salt2.data ≠ confirmationSalt.data := fun h => hs (string_data_inj h)
  have hl := loadsL_wrong_salt SECRET_KEY.data confirmationSalt.data salt2.data i.data
    hs2 n a t
  refine ⟨hl, ?_⟩
  show (match loadsL SECRET_KEY.data confirmationSalt.data
      (dumpsL SECRET_KEY.data salt2.data i.data n) a t with
    | .ok payload => some (String.mk payload)
    | .error _ => none) = none
  rw [hl]

set_option maxRecDepth 100000 in
theorem C8_counterexample :
    loadsL SECRET_KEY.data confirmationSalt.data
        (generate_token_with_salt "password-reset-salt" "alice@x.com" 0).data 3600 0
      = Except.error TokenErr.badSignature ∧
    confirm_token (generate_token_with_salt "password-reset-salt" "alice@x.com" 0) 3600 0
      = none ∧
    confirm_token "" 3600 0 = none := by
  refine ⟨rfl, by decide, by decide⟩

set_option maxRecDepth 100000 in
theorem C8_witness :
    confirm_token (generate_token_with_salt "password-reset" "carol@x.com" 0) 3600 0
      = none :=
  (C8_wrong_salt_fails "password-reset" (by decide) "carol@x.com" 0 3600 0).2

/-- C9: Failed confirmation is side-effect free — whenever `confirm_email`
fails (invalid token, empty identity or unknown identity), the store it
returns is exactly the store it was given. -/
theorem C9_failed_confirm_frame (db : Db) (token : String) (now : Nat)
    (h : (confirm_email db token now).1 = ConfirmOutcome.invalidToken) :
    (confirm_email db token now).2 = db := by
  unfold confirm_email at h ⊢
  match htok : confirm_token token 3600 now with
  | none => rfl
  | some e =>
    rw [htok] at h
    have h1 : (if e = "" then (ConfirmOutcome.invalidToken, db)
        else match db e with
          | none => (ConfirmOutcome.invalidToken, db)
          | some r =>
            (ConfirmOutcome.confirmed e, db.insert e { r with is_active := true })).1
        = ConfirmOutcome.invalidToken := h
    show (if e = "" then (ConfirmOutcome.invalidToken, db)
        else match db e with
          | none => (ConfirmOutcome.invalidToken, db)
          | some r =>
            (ConfirmOutcome.confirmed e, db.insert e { r with is_active := true })).2 = db
    by_cases he : e = ""
    · rw [if_pos he]
    · rw [if_neg he] at h1
      rw [if_neg he]
      match hdb : db e with
      | none => rfl
      | some r =>
        rw [hdb] at h1
        exact absurd h1 (by simp)

theorem C9_witness : (confirm_email (fun _ => none) "bad" 0).2 = (fun _ => none : Db) :=
  C9_failed_confirm_frame (fun _ => none) "bad" 0 rfl

/-- C10: verification is total and never raises — for every input string and
expiration, `confirm_token` returns `none` exactly when the serializer raises
(any exception is caught), the decoded identity otherwise, and in all cases
its result is `none` or `some`. -/
theorem C10_confirm_token_total (token : String) (expiration now : Nat) :
    (∀ err, loadsL SECRET_KEY.data confirmationSalt.data token.data expiration now
        = Except.error err → confirm_token token expiration now = none) ∧
    (∀ payload, loadsL SECRET_KEY.data confirmationSalt.data token.data expiration now
        = Except.ok payload →
          confirm_token token expiration now = some (String.mk payload)) ∧
    (confirm_token token expiration now = none ∨
      ∃ s, confirm_token token expiration now = some s) := by
  refine ⟨?_, ?_, ?_⟩
  · intro err h
    unfold confirm_token
    rw [h]
  · intro payload h
    unfold confirm_token
    rw [h]
  · cases h : confirm_token token expiration now
    · exact Or.inl rfl
    · exact Or.inr ⟨_, rfl⟩

theorem C10_witness : confirm_token "x" 0 0 = none :=
  (C10_confirm_token_total "x" 0 0).1 TokenErr.badSignature rfl



end ConfirmEmails
